import Mathlib

/-
Shallow embedding of the skim reader's core algorithms:

* `ChunkerService` (src/src/chunker/ChunkerService.ts, config-aware revision
  src/unnamed/part_012): `chunkText`, `splitIntoSentences`,
  `groupSentencesIntoSlides`, `splitLongSentence`, `countWords`,
  `tokenizeWords`.
* `ReaderPage` helpers (src/src/pages/ReaderPage.tsx): `wordOffsetToSlideIndex`,
  `slideIndexToWordOffset`, `getTotalWords`, `getWordsBeforeChapter` and the
  inline `currentProgress` computation (named `calculateProgress` here, after
  the spec).
* `ReadingTimeEstimator` (src/unnamed/part_005, the revision matching
  src/src/utils/ReadingTimeEstimator.test.ts): `addObservation`, `predict`.
* `SlidingWindowHelper` (src/src/parser/types.ts): `computeWindow` with its
  `splitIntoWords`/`countWordsInTokens` helpers.

Strings are embedded as `List Char`.  JavaScript numbers that only ever hold
integers are embedded as `Nat`/`Int`; the estimator's times are `ℚ`.
-/

abbrev Str := List Char

/-- The whitespace class of the source's `/\s+/` splits (ASCII fragment;
JS `\s` additionally covers exotic Unicode spaces that no claim exercises). -/
def isWs (c : Char) : Bool :=
  c == ' ' || c == '\t' || c == '\n' || c == '\r'

/-- The sentence-terminator class `[.!?]` of `splitIntoSentences`. -/
def isTerm (c : Char) : Bool :=
  c == '.' || c == '!' || c == '?'

/-- JS `text.split(/\s+/).map(w => w.trim()).filter(w => w.length > 0)`:
the maximal whitespace-free runs of the text (splitting on every whitespace
character and dropping empty fragments is the same as splitting on whitespace
runs; the inner `trim` is a no-op on whitespace-free fragments). -/
def tokenizeWords (cs : Str) : List Str :=
  (cs.splitOnP isWs).filter (fun w => !w.isEmpty)

/-- The `countWords` of ChunkerService: `tokenizeWords(text).length`. -/
def countWords (cs : Str) : Nat :=
  (tokenizeWords cs).length

/-- JS `array.join(' ')`. -/
def joinSp : List Str → Str
  | [] => []
  | [s] => s
  | s :: rest => s ++ ' ' :: joinSp rest

/-- JS `String.prototype.trim`: drop leading and trailing whitespace. -/
def trim (cs : Str) : Str :=
  ((cs.dropWhile isWs).reverse.dropWhile isWs).reverse

/-- The `ChunkConfig` of src/src/chunker/types.ts. -/
structure ChunkConfig where
  maxWords : Nat

/-- Default config: `DEFAULT_CHUNK_CONFIG = { maxWords: 50 }`. -/
def DEFAULT_CHUNK_CONFIG : ChunkConfig := ⟨50⟩

/--
One attempt of the sentence regex `[^.!?]+[.!?]+(?:\s+|$)` at the start of
`cs`.  The greedy backtracking search commits to the maximal run of
non-terminators (shrinking it only moves `[.!?]+` onto a non-terminator),
then the maximal run of terminators (shrinking it only moves `\s+|$` onto a
terminator), then `\s+` greedily or end of string.  Returns the matched
substring and the remaining suffix.
-/
def matchAt (cs : Str) : Option (Str × Str) :=
  let a := cs.takeWhile (fun c => !(isTerm c))
  if a.isEmpty then none
  else
    let cs1 := cs.dropWhile (fun c => !(isTerm c))
    let b := cs1.takeWhile isTerm
    if b.isEmpty then none
    else
      let cs2 := cs1.dropWhile isTerm
      match cs2 with
      | [] => some (a ++ b, [])
      | c :: _ =>
        if isWs c then some (a ++ b ++ cs2.takeWhile isWs, cs2.dropWhile isWs)
        else none

/--
`text.match(/.../g)`: collect successive non-overlapping leftmost matches,
advancing one character after a failed attempt and to the match end after a
successful one.  Structured with fuel (one unit per attempted start
position, enough since every step consumes at least one character). -/
def findMatchesAux : Nat → Str → List Str
  | 0, _ => []
  | _ + 1, [] => []
  | fuel + 1, c :: rest =>
    match matchAt (c :: rest) with
    | some (m, r) => m :: findMatchesAux fuel r
    | none => findMatchesAux fuel rest

def findMatches (cs : Str) : List Str :=
  findMatchesAux cs.length cs

/-- The `splitIntoSentences` of ChunkerService: regex matches trimmed and
filtered, or the whole trimmed text when there is no match. -/
def splitIntoSentences (text : Str) : List Str :=
  let ms := findMatches text
  if ms.isEmpty then [trim text]
  else (ms.map trim).filter (fun s => !s.isEmpty)

/--
Blocks of `n` consecutive elements (the `for (let i = 0; i < words.length;
i += maxWords)` slicing loop of `splitLongSentence`), with fuel for
structural recursion.  The fuel never runs out when it starts at `l.length`
and `n ≥ 1`. -/
def chunksOfAux (n : Nat) : Nat → List α → List (List α)
  | _, [] => []
  | 0, l => [l]
  | fuel + 1, x :: xs => ((x :: xs).take n) :: chunksOfAux n fuel ((x :: xs).drop n)

/-- A cap of `n = 0` would loop forever in the source (`i += 0`); every claim assumes a
positive word cap, so that case is modelled arbitrarily as one block. -/
def chunksOf (n : Nat) (l : List α) : List (List α) :=
  if n = 0 then [l] else chunksOfAux n l.length l

/-- The `splitLongSentence` of ChunkerService: word blocks of size `maxWords`,
each re-joined with single spaces. -/
def splitLongSentence (sentence : Str) (maxWords : Nat) : List Str :=
  (chunksOf maxWords (tokenizeWords sentence)).map joinSp

/-- The mutable loop state of `groupSentencesIntoSlides`. -/
structure GroupState where
  slides : List Str
  currentSlide : List Str
  currentWordCount : Nat

/-- The `if (currentSlide.length > 0) { slides.push(currentSlide.join(' ')); ... }`
flush. -/
def flushSlide (st : GroupState) : GroupState :=
  if st.currentSlide.isEmpty then st
  else ⟨st.slides ++ [joinSp st.currentSlide], [], 0⟩

/-- One iteration of the `for (const sentence of sentences)` loop of
`groupSentencesIntoSlides` (config-aware revision).  `getLastD []` models
`chunks[chunks.length - 1]`, which the source only reaches with a non-empty
`chunks`. -/
def stepSentence (maxWords : Nat) (st : GroupState) (sentence : Str) : GroupState :=
  let sentenceWords := countWords sentence
  if st.currentWordCount + sentenceWords > maxWords then
    let st1 := flushSlide st
    if sentenceWords > maxWords then
      let chunks := splitLongSentence sentence maxWords
      let lastChunk := chunks.getLastD []
      ⟨st1.slides ++ chunks.dropLast, [lastChunk], countWords lastChunk⟩
    else
      ⟨st1.slides, [sentence], sentenceWords⟩
  else
    ⟨st.slides, st.currentSlide ++ [sentence], st.currentWordCount + sentenceWords⟩

/-- The `groupSentencesIntoSlides` of ChunkerService: the loop followed by the
final flush of remaining content. -/
def groupSentencesIntoSlides (sentences : List Str) (config : ChunkConfig) : List Str :=
  let st := sentences.foldl (stepSentence config.maxWords) ⟨[], [], 0⟩
  st.slides ++ (if st.currentSlide.isEmpty then [] else [joinSp st.currentSlide])

/-- The `chunkText` of ChunkerService (config-aware revision, the one ReaderPage
calls). -/
def chunkText (text : Str) (config : ChunkConfig) : List Str :=
  if (trim text).isEmpty then []
  else groupSentencesIntoSlides (splitIntoSentences text) config

/--
`wordOffsetToSlideIndex` of ReaderPage (cumulative-sum scan): the source
keeps a running `currentWordCount` and returns the first `i` with
`currentWordCount + slideWordCount > wordOffset`; this recursion carries the
accumulated count by subtracting it from the offset instead
(`cum + wc > off` iff `wc > off - cum`), returning the index relative to the
remaining list.  `none` models falling off the loop.  The per-slide count
`slides[i].split(/\s+/).filter(w => w.trim().length > 0).length` is the same
tokenization as `countWords`. -/
def wordOffsetToSlideIndexAux (wordOffset : Int) : List Str → Option Nat
  | [] => none
  | s :: rest =>
    if (countWords s : Int) > wordOffset then some 0
    else (wordOffsetToSlideIndexAux (wordOffset - countWords s) rest).map (· + 1)

/-- Fallback `return Math.max(0, slides.length - 1)` after the loop (`Nat` subtraction
already clamps at 0). -/
def wordOffsetToSlideIndex (wordOffset : Int) (slides : List Str) : Nat :=
  (wordOffsetToSlideIndexAux wordOffset slides).getD (slides.length - 1)

/-- The `slideIndexToWordOffset` of ReaderPage: total word count of the slides
strictly before `slideIndex` (the loop bound `i < slideIndex && i < slides.length`
is `take`). -/
def slideIndexToWordOffset (slideIndex : Nat) (slides : List Str) : Nat :=
  ((slides.take slideIndex).map countWords).sum

/-- Word count of the slides strictly before index `i`. -/
def cumWordsBefore (slides : List Str) (i : Nat) : Nat :=
  ((slides.take i).map countWords).sum

/-- Total word count of a slide list. -/
def totalSlideWords (slides : List Str) : Nat :=
  (slides.map countWords).sum

/-- Slide `i` covers offset `off`: the words before it reach at most `off`
and its own words reach past `off`. -/
def coversOffset (slides : List Str) (i : Nat) (off : Int) : Prop :=
  i < slides.length ∧ (cumWordsBefore slides i : Int) ≤ off ∧
    off < cumWordsBefore slides i + countWords (slides.getD i [])

/-- The `getTotalWords` of ReaderPage; a chapter is embedded as its `words`
field. -/
def getTotalWords (chapters : List Nat) : Nat := chapters.sum

/-- The `getWordsBeforeChapter` of ReaderPage. -/
def getWordsBeforeChapter (chapters : List Nat) (chapterIndex : Nat) : Nat :=
  (chapters.take chapterIndex).sum

/-- The inline `currentProgress` computation of ReaderPage (named
`calculateProgress` after the spec): 0 for no chapters or a zero total,
otherwise `(wordsBefore + wordOffset) / totalWords * 100` over the
rationals. -/
def calculateProgress (chapters : List Nat) (chapterIndex : Nat) (wordOffset : Nat) : ℚ :=
  if chapters.isEmpty then 0
  else
    let totalWords := getTotalWords chapters
    if totalWords = 0 then 0
    else ((getWordsBeforeChapter chapters chapterIndex + wordOffset : ℚ) / totalWords) * 100

/-- The mutable fields of `ReadingTimeEstimator` (src/unnamed/part_005, the
revision its unit tests exercise). -/
structure EstimatorState where
  n : Nat
  ema : ℚ

/-- A fresh estimator: `n = 0`, `ema = 0`. -/
def initialEstimator : EstimatorState := ⟨0, 0⟩

/-- Learning rate `alpha = 0.3`. -/
def emaAlpha : ℚ := 3 / 10

/-- Constant `MIN_TIME_SECONDS = 5`. -/
def MIN_TIME_SECONDS : ℚ := 5

/-- Constant `BUFFER_SECONDS = 2`. -/
def BUFFER_SECONDS : ℚ := 2

/-- The `addObservation` of ReadingTimeEstimator: clamp to the 5-second minimum,
initialize the EMA on the first observation, otherwise blend. -/
def addObservation (timeSeconds : ℚ) (st : EstimatorState) : EstimatorState :=
  let clampedTime := max timeSeconds MIN_TIME_SECONDS
  ⟨st.n + 1,
   if st.n = 0 then clampedTime
   else emaAlpha * clampedTime + (1 - emaAlpha) * st.ema⟩

/-- The `predict` of ReadingTimeEstimator: default before any observation,
otherwise the EMA plus the buffer, clamped to the minimum. -/
def predict (st : EstimatorState) : ℚ :=
  if st.n = 0 then MIN_TIME_SECONDS + BUFFER_SECONDS
  else max MIN_TIME_SECONDS (st.ema + BUFFER_SECONDS)

/-- A whole session: feed the observations in order to a fresh estimator. -/
def runObservations (obs : List ℚ) : EstimatorState :=
  obs.foldl (fun st t => addObservation t st) initialEstimator

/-- The `WindowConfig = (prevCount, nextCount)` of src/src/parser/types.ts. -/
structure WindowConfig where
  prevCount : Nat
  nextCount : Nat

/-- The `SlideWindow` of src/src/parser/types.ts; word offsets are `Int`
because `wordsBeforeWindow` is computed by subtraction before being clamped. -/
structure SlideWindow where
  slides : List Str
  currentIndex : Nat
  startWordOffset : Int
  chapterIndex : Nat
  endWordOffset : Int
  slideWordCounts : List Nat

/-- JS `text.split(/(\s+)/).filter(token => token.length > 0)` of
`SlidingWindowHelper.splitIntoWords`: the maximal whitespace and
non-whitespace runs of the text, in order (a capturing-group split keeps the
separators; the filter drops the empty boundary fragments).  Fuel-structured
like `findMatchesAux`; each step consumes at least one character. -/
def splitIntoWordsAux : Nat → Str → List Str
  | 0, _ => []
  | _ + 1, [] => []
  | fuel + 1, c :: rest =>
    if isWs c then
      (c :: rest.takeWhile isWs) :: splitIntoWordsAux fuel (rest.dropWhile isWs)
    else
      (c :: rest.takeWhile (fun d => !isWs d)) ::
        splitIntoWordsAux fuel (rest.dropWhile (fun d => !isWs d))

def splitIntoWords (cs : Str) : List Str :=
  splitIntoWordsAux cs.length cs

/-- JS `/^\s+$/.test(t)`: `t` is a non-empty pure-whitespace run. -/
def isWsRun (t : Str) : Bool :=
  !t.isEmpty && t.all isWs

/-- The `countWordsInTokens` of SlidingWindowHelper: the number of tokens
that are not whitespace runs. -/
def countWordsInTokens (tokens : List Str) : Nat :=
  (tokens.filter (fun t => !(isWsRun t))).length

/-- The word-offset→token-index loop of `computeWindow`: walk the tokens
with index `i` and running `wordCount wc`; at each word token, break with the
current index once `wc` has reached the target, else increment `wc`.
Returns the break index (if the loop broke) and the final `wordCount`. -/
def tokenIndexScan (target : Nat) : List Str → Nat → Nat → Option Nat × Nat
  | [], _, wc => (none, wc)
  | t :: rest, i, wc =>
    if !(isWsRun t) then
      if wc ≥ target then (some i, wc)
      else tokenIndexScan target rest (i + 1) (wc + 1)
    else tokenIndexScan target rest (i + 1) wc

/-- `targetTokenIndex` after the loop: the break index when the loop broke;
otherwise `allTokens.length` when the final `wordCount` is still below the
target, else the initializer 0 (so a target equal to the total word count
leaves the index at 0). -/
def targetTokenIndex (target : Nat) (allTokens : List Str) : Nat :=
  match tokenIndexScan target allTokens 0 0 with
  | (some i, _) => i
  | (none, wc) => if wc < target then allTokens.length else 0

/-- JS `array.slice(-n)`: the last `n` elements — except that `slice(-0)` is
`slice(0)`, the whole array. -/
def sliceLast (n : Nat) (l : List α) : List α :=
  if n = 0 then l else l.drop (l.length - n)

/-- The `computeWindow` of `SlidingWindowHelper` (src/src/parser/types.ts):
tokenize the chapter into whitespace-preserving runs, locate the token index
of the target word offset, independently chunk the text before and after that
cut with `chunkText`, keep the last `prevCount` before-slides and the first
`nextCount + 1` after-slides, and derive the offsets from the actual word
counts (`startWordOffset = max(0, words before the cut - words kept before)`,
`endWordOffset = startWordOffset + sum(slideWordCounts)`).  The `chapter`
record argument is embedded as its `text` and `chapterIndex` fields. -/
def computeWindow (chapterText : Str) (chapterIndex : Nat) (targetWordOffset : Nat)
    (config : ChunkConfig) (wconfig : WindowConfig) : SlideWindow :=
  let allTokens := splitIntoWords chapterText
  let tIdx := targetTokenIndex targetWordOffset allTokens
  let tokensBefore := allTokens.take tIdx
  let tokensAfter := allTokens.drop tIdx
  let textBefore := tokensBefore.flatten
  let slidesBefore := if textBefore.isEmpty then [] else chunkText textBefore config
  let prev := sliceLast wconfig.prevCount slidesBefore
  let textAfter := tokensAfter.flatten
  let slidesAfter := if textAfter.isEmpty then [] else chunkText textAfter config
  let currentAndNext := slidesAfter.take (wconfig.nextCount + 1)
  let slides := prev ++ currentAndNext
  let slideWordCounts := slides.map (fun s => countWordsInTokens (splitIntoWords s))
  let wordsBeforeWindow : Int := (countWordsInTokens tokensBefore : Int) -
    ((prev.map (fun s => countWordsInTokens (splitIntoWords s))).sum : Int)
  let startWordOffset : Int := max 0 wordsBeforeWindow
  { slides := slides
    currentIndex := prev.length
    startWordOffset := startWordOffset
    chapterIndex := chapterIndex
    endWordOffset := startWordOffset + (slideWordCounts.sum : Int)
    slideWordCounts := slideWordCounts }

/-! ### Tokenization lemmas -/

theorem splitOnP_append_sep {α : Type} (p : α → Bool) (a b : List α) (c : α)
    (hc : p c = true) :
    (a ++ c :: b).splitOnP p = a.splitOnP p ++ b.splitOnP p := by
  induction a with
  | nil => simp [List.splitOnP_nil, List.splitOnP_cons, hc]
  | cons x xs ih =>
    by_cases hx : p x = true
    · simp [List.splitOnP_cons, hx, ih]
    · simp only [List.cons_append, List.splitOnP_cons, hx, if_false, ih]
      obtain ⟨h0, t0, he⟩ := List.exists_cons_of_ne_nil (List.splitOnP_ne_nil p xs)
      simp [he]

theorem tokenizeWords_append_ws {c : Char} (hc : isWs c = true) (a b : Str) :
    tokenizeWords (a ++ c :: b) = tokenizeWords a ++ tokenizeWords b := by
  simp [tokenizeWords, splitOnP_append_sep isWs a b c hc, List.filter_append]

theorem tokenizeWords_nil : tokenizeWords [] = [] := rfl

theorem tokenizeWords_eq_single {w : Str} (h1 : w ≠ [])
    (h2 : ∀ c ∈ w, isWs c = false) : tokenizeWords w = [w] := by
  have hs : w.splitOnP isWs = [w] :=
    List.splitOnP_eq_single _ _ (fun x hx => by simp [h2 x hx])
  simp [tokenizeWords, hs, h1]

theorem tokenizeWords_joinSp (parts : List Str) :
    tokenizeWords (joinSp parts) = parts.flatMap tokenizeWords := by
  induction parts with
  | nil => rfl
  | cons s ss ih =>
    cases ss with
    | nil => simp [joinSp]
    | cons t ts =>
      have hws : isWs ' ' = true := rfl
      simp only [joinSp, tokenizeWords_append_ws hws s (joinSp (t :: ts)), ih,
        List.flatMap_cons]

theorem splitOnP_segments_not_p {α : Type} (p : α → Bool) (l : List α) :
    ∀ seg ∈ l.splitOnP p, ∀ x ∈ seg, p x = false := by
  induction l with
  | nil => intro seg hseg x hx; simp [List.splitOnP_nil] at hseg; simp [hseg] at hx
  | cons c l ih =>
    intro seg hseg x hx
    by_cases hc : p c = true
    · rw [List.splitOnP_cons, if_pos hc] at hseg
      rcases List.mem_cons.1 hseg with h | h
      · simp [h] at hx
      · exact ih seg h x hx
    · rw [List.splitOnP_cons, if_neg hc] at hseg
      obtain ⟨h0, t0, he⟩ := List.exists_cons_of_ne_nil (List.splitOnP_ne_nil p l)
      rw [he, List.modifyHead_cons] at hseg
      rcases List.mem_cons.1 hseg with h | h
      · subst h
        rcases List.mem_cons.1 hx with rfl | hx2
        · simpa using hc
        · exact ih h0 (he ▸ List.mem_cons_self h0 t0) x hx2
      · exact ih seg (he ▸ List.mem_cons_of_mem h0 h) x hx

theorem tokenizeWords_tokens {s : Str} :
    ∀ t ∈ tokenizeWords s, t ≠ [] ∧ ∀ c ∈ t, isWs c = false := by
  intro t ht
  have hmem := List.mem_of_mem_filter ht
  have hne : t ≠ [] := by
    have := List.of_mem_filter ht
    simpa using this
  exact ⟨hne, splitOnP_segments_not_p isWs s t hmem⟩

theorem tokenizeWords_eq_nil_iff {s : Str} :
    tokenizeWords s = [] ↔ ∀ c ∈ s, isWs c = true := by
  constructor
  · intro h
    induction s with
    | nil => intro c hc; simp at hc
    | cons c l ih =>
      by_cases hc : isWs c = true
      · have : tokenizeWords (c :: l) = tokenizeWords l := by
          simp [tokenizeWords, List.splitOnP_cons, hc]
        intro x hx
        rcases List.mem_cons.1 hx with rfl | hx2
        · exact hc
        · exact ih (this ▸ h) x hx2
      · exfalso
        obtain ⟨h0, t0, he⟩ := List.exists_cons_of_ne_nil (List.splitOnP_ne_nil isWs l)
        have : tokenizeWords (c :: l) = (c :: h0) :: (t0.filter (fun w => !w.isEmpty)) := by
          simp [tokenizeWords, List.splitOnP_cons, hc, he, List.modifyHead_cons]
        rw [this] at h
        simp at h
  · intro h
    induction s with
    | nil => rfl
    | cons c l ih =>
      have hc : isWs c = true := h c (List.mem_cons_self c l)
      have : tokenizeWords (c :: l) = tokenizeWords l := by
        simp [tokenizeWords, List.splitOnP_cons, hc]
      rw [this]
      exact ih (fun x hx => h x (List.mem_cons_of_mem c hx))

theorem tokenizeWords_flatMap_self {blk : List Str}
    (h : ∀ w ∈ blk, tokenizeWords w = [w]) :
    blk.flatMap tokenizeWords = blk := by
  induction blk with
  | nil => rfl
  | cons w ws ih =>
    simp only [List.flatMap_cons, h w (List.mem_cons_self w ws)]
    rw [ih (fun x hx => h x (List.mem_cons_of_mem w hx))]
    rfl

theorem countWords_joinSp (parts : List Str) :
    countWords (joinSp parts) = (parts.flatMap tokenizeWords).length := by
  simp [countWords, tokenizeWords_joinSp]

/-! ### Trim and sentence-segmentation lemmas -/

theorem trim_eq_nil_iff {cs : Str} : trim cs = [] ↔ ∀ c ∈ cs, isWs c = true := by
  unfold trim
  rw [List.reverse_eq_nil_iff, List.dropWhile_eq_nil_iff]
  constructor
  · intro h c hc
    have hsplit := List.takeWhile_append_dropWhile isWs cs
    rcases List.mem_append.1 (by rw [hsplit]; exact hc) with h1 | h2
    · exact List.mem_takeWhile_imp h1
    · exact h c (List.mem_reverse.2 h2)
  · intro h x hx
    exact h x (List.Sublist.mem (List.mem_reverse.1 hx) (List.dropWhile_sublist isWs))

theorem isWs_isTerm_false {c : Char} (h : isWs c = true) : isTerm c = false := by
  simp only [isWs, Bool.or_eq_true, beq_iff_eq] at h
  rcases h with ((h | h) | h) | h <;> subst h <;> rfl

theorem matchAt_none_of_no_term {cs : Str} (h : ∀ c ∈ cs, isTerm c = false) :
    matchAt cs = none := by
  have hdrop : cs.dropWhile (fun c => !(isTerm c)) = [] :=
    List.dropWhile_eq_nil_iff.2 (fun x hx => by simp [h x hx])
  unfold matchAt
  rw [hdrop]
  by_cases ha : (cs.takeWhile fun c => !(isTerm c)).isEmpty <;> simp [ha]

theorem findMatchesAux_all_ws {fuel : Nat} {cs : Str}
    (h : ∀ c ∈ cs, isWs c = true) : findMatchesAux fuel cs = [] := by
  induction fuel generalizing cs with
  | zero => rfl
  | succ fuel ih =>
    cases cs with
    | nil => rfl
    | cons c rest =>
      have hnone : matchAt (c :: rest) = none :=
        matchAt_none_of_no_term (fun x hx => isWs_isTerm_false (h x hx))
      show (match matchAt (c :: rest) with
        | some (m, r) => m :: findMatchesAux fuel r
        | none => findMatchesAux fuel rest) = []
      rw [hnone]
      exact ih (fun x hx => h x (List.mem_cons_of_mem c hx))

theorem matchAt_has_term {cs m r : Str} (h : matchAt cs = some (m, r)) :
    ∃ c ∈ m, isTerm c = true := by
  simp only [matchAt] at h
  split at h
  · exact absurd h (by simp)
  split at h
  · exact absurd h (by simp)
  rename_i ha hb
  obtain ⟨b0, bt, hbe⟩ := List.exists_cons_of_ne_nil
    (l := List.takeWhile isTerm (List.dropWhile (fun c => !isTerm c) cs))
    (fun hnil => hb (by rw [hnil]; rfl))
  have hb0 : isTerm b0 = true :=
    List.mem_takeWhile_imp (by rw [hbe]; exact List.mem_cons_self b0 bt)
  split at h
  · simp only [Option.some.injEq, Prod.mk.injEq] at h
    refine ⟨b0, ?_, hb0⟩
    rw [← h.1, hbe]
    exact List.mem_append.2 (Or.inr (List.mem_cons_self b0 bt))
  · split at h
    · simp only [Option.some.injEq, Prod.mk.injEq] at h
      refine ⟨b0, ?_, hb0⟩
      rw [← h.1, hbe]
      exact List.mem_append.2 (Or.inl (List.mem_append.2 (Or.inr (List.mem_cons_self b0 bt))))
    · exact absurd h (by simp)

theorem findMatchesAux_has_term {fuel : Nat} {cs : Str} :
    ∀ m ∈ findMatchesAux fuel cs, ∃ c ∈ m, isTerm c = true := by
  induction fuel generalizing cs with
  | zero => intro m hm; simp [findMatchesAux] at hm
  | succ fuel ih =>
    intro m hm
    cases cs with
    | nil => simp [findMatchesAux] at hm
    | cons c rest =>
      rw [show findMatchesAux (fuel + 1) (c :: rest) =
        (match matchAt (c :: rest) with
          | some (m, r) => m :: findMatchesAux fuel r
          | none => findMatchesAux fuel rest) from rfl] at hm
      cases hma : matchAt (c :: rest) with
      | none => rw [hma] at hm; exact ih m hm
      | some pr =>
        obtain ⟨m0, r0⟩ := pr
        rw [hma] at hm
        rcases List.mem_cons.1 hm with rfl | hm2
        · exact matchAt_has_term hma
        · exact ih m hm2

/-! ### Word-block lemmas -/

theorem chunksOfAux_flatten {α : Type} {n : Nat} (hn : 1 ≤ n) :
    ∀ (fuel : Nat) (l : List α), l.length ≤ fuel → (chunksOfAux n fuel l).flatten = l := by
  intro fuel
  induction fuel with
  | zero =>
    intro l hl
    cases l with
    | nil => rfl
    | cons x xs => simp at hl
  | succ fuel ih =>
    intro l hl
    cases l with
    | nil => rfl
    | cons x xs =>
      show ((x :: xs).take n :: chunksOfAux n fuel ((x :: xs).drop n)).flatten = x :: xs
      have hlen : ((x :: xs).drop n).length ≤ fuel := by
        simp only [List.length_drop, List.length_cons] at *
        omega
      rw [List.flatten_cons, ih ((x :: xs).drop n) hlen, List.take_append_drop]

theorem chunksOf_flatten {α : Type} (n : Nat) (l : List α) :
    (chunksOf n l).flatten = l := by
  unfold chunksOf
  by_cases hn : n = 0
  · simp [hn]
  · rw [if_neg hn]
    exact chunksOfAux_flatten (Nat.one_le_iff_ne_zero.2 hn) l.length l le_rfl

theorem chunksOfAux_block_length {α : Type} {n : Nat} (hn : 1 ≤ n) :
    ∀ (fuel : Nat) (l : List α), l.length ≤ fuel → ∀ b ∈ chunksOfAux n fuel l, b.length ≤ n := by
  intro fuel
  induction fuel with
  | zero =>
    intro l hl b hb
    cases l with
    | nil => simp [chunksOfAux] at hb
    | cons x xs => simp at hl
  | succ fuel ih =>
    intro l hl b hb
    cases l with
    | nil => simp [chunksOfAux] at hb
    | cons x xs =>
      rcases List.mem_cons.1 hb with rfl | hb2
      · simp
      · refine ih _ ?_ b hb2
        simp only [List.length_drop, List.length_cons] at *
        omega

theorem chunksOf_block_length {α : Type} {n : Nat} (hn : 1 ≤ n) (l : List α) :
    ∀ b ∈ chunksOf n l, b.length ≤ n := by
  intro b hb
  unfold chunksOf at hb
  rw [if_neg (by omega)] at hb
  exact chunksOfAux_block_length hn l.length l le_rfl b hb

theorem chunksOf_ne_nil {α : Type} {n : Nat} {l : List α} (hl : l ≠ []) :
    chunksOf n l ≠ [] := by
  unfold chunksOf
  by_cases hn : n = 0
  · simp [hn]
  · rw [if_neg hn]
    obtain ⟨x, xs, rfl⟩ := List.exists_cons_of_ne_nil hl
    simp [chunksOfAux]

/-! ### Word preservation and word cap of the grouping loop -/

/-- The words of a slide list, in order. -/
def wordsOfSlides (slides : List Str) : List Str :=
  slides.flatMap tokenizeWords

/-- The slides the loop state stands for: the emitted ones plus the final
flush. -/
def emitted (st : GroupState) : List Str :=
  st.slides ++ (if st.currentSlide.isEmpty then [] else [joinSp st.currentSlide])

theorem wordsOfSlides_append (a b : List Str) :
    wordsOfSlides (a ++ b) = wordsOfSlides a ++ wordsOfSlides b := by
  simp [wordsOfSlides]

theorem wordsOfSlides_emitted (st : GroupState) :
    wordsOfSlides (emitted st) =
      wordsOfSlides st.slides ++ st.currentSlide.flatMap tokenizeWords := by
  unfold emitted
  by_cases hc : st.currentSlide.isEmpty
  · rw [if_pos hc]
    have : st.currentSlide = [] := by simpa using hc
    simp [this]
  · rw [if_neg hc]
    rw [wordsOfSlides_append]
    simp [wordsOfSlides, tokenizeWords_joinSp]

theorem dropLast_append_getLastD {α : Type} {l : List α} (h : l ≠ []) (d : α) :
    l.dropLast ++ [l.getLastD d] = l := by
  rw [List.getLastD_eq_getLast?, List.getLast?_eq_getLast l h]
  exact List.dropLast_append_getLast h

theorem splitLongSentence_words (s : Str) (n : Nat) :
    (splitLongSentence s n).flatMap tokenizeWords = tokenizeWords s := by
  unfold splitLongSentence
  rw [List.flatMap_map]
  have hblk : ∀ blk ∈ chunksOf n (tokenizeWords s), blk.flatMap tokenizeWords = blk := by
    intro blk hblk
    refine tokenizeWords_flatMap_self (fun w hw => ?_)
    have hmem : w ∈ tokenizeWords s := by
      rw [← chunksOf_flatten n (tokenizeWords s)]
      exact List.mem_flatten.2 ⟨blk, hblk, hw⟩
    obtain ⟨hne, hws⟩ := tokenizeWords_tokens w hmem
    exact tokenizeWords_eq_single hne hws
  calc (chunksOf n (tokenizeWords s)).flatMap (fun blk => tokenizeWords (joinSp blk))
      = (chunksOf n (tokenizeWords s)).flatMap (fun blk => blk.flatMap tokenizeWords) := by
        exact List.flatMap_congr (fun blk hb => by rw [tokenizeWords_joinSp])
    _ = (chunksOf n (tokenizeWords s)).flatMap id := by
        exact List.flatMap_congr (fun blk hb => hblk blk hb)
    _ = tokenizeWords s := by rw [List.flatMap_id, chunksOf_flatten]

theorem splitLongSentence_chunk_words {s : Str} {n : Nat} (hn : 1 ≤ n) :
    ∀ chunk ∈ splitLongSentence s n, countWords chunk ≤ n := by
  intro chunk hc
  unfold splitLongSentence at hc
  obtain ⟨blk, hblk, rfl⟩ := List.mem_map.1 hc
  have hwords : ∀ w ∈ blk, tokenizeWords w = [w] := by
    intro w hw
    have hmem : w ∈ tokenizeWords s := by
      rw [← chunksOf_flatten n (tokenizeWords s)]
      exact List.mem_flatten.2 ⟨blk, hblk, hw⟩
    obtain ⟨hne, hws⟩ := tokenizeWords_tokens w hmem
    exact tokenizeWords_eq_single hne hws
  rw [countWords_joinSp, tokenizeWords_flatMap_self hwords]
  exact chunksOf_block_length hn _ blk hblk

theorem splitLongSentence_ne_nil {s : Str} {n : Nat} (hs : tokenizeWords s ≠ []) :
    splitLongSentence s n ≠ [] := by
  unfold splitLongSentence
  rw [Ne, List.map_eq_nil_iff]
  exact chunksOf_ne_nil hs

theorem flushSlide_slides_words (st : GroupState) :
    wordsOfSlides (flushSlide st).slides =
      wordsOfSlides st.slides ++ st.currentSlide.flatMap tokenizeWords := by
  unfold flushSlide
  by_cases hc : st.currentSlide.isEmpty
  · rw [if_pos hc]
    have he : st.currentSlide = [] := by simpa using hc
    simp [he]
  · rw [if_neg hc]
    simp [wordsOfSlides_append, wordsOfSlides, tokenizeWords_joinSp]

theorem emitted_stepSentence (max : Nat) (st : GroupState) (s : Str) :
    wordsOfSlides (emitted (stepSentence max st s)) =
      wordsOfSlides (emitted st) ++ tokenizeWords s := by
  unfold stepSentence
  by_cases h1 : st.currentWordCount + countWords s > max
  · rw [if_pos h1]
    by_cases h2 : countWords s > max
    · rw [if_pos h2]
      have hts : tokenizeWords s ≠ [] := by
        intro hnil
        have hz : countWords s = 0 := by simp [countWords, hnil]
        omega
      have hchunks : splitLongSentence s max ≠ [] := splitLongSentence_ne_nil hts
      rw [wordsOfSlides_emitted, wordsOfSlides_emitted]
      show wordsOfSlides ((flushSlide st).slides ++ (splitLongSentence s max).dropLast) ++
          ([(splitLongSentence s max).getLastD []]).flatMap tokenizeWords =
        (wordsOfSlides st.slides ++ st.currentSlide.flatMap tokenizeWords) ++ tokenizeWords s
      rw [wordsOfSlides_append, flushSlide_slides_words]
      have hre : wordsOfSlides ((splitLongSentence s max).dropLast) ++
          ([(splitLongSentence s max).getLastD []]).flatMap tokenizeWords = tokenizeWords s := by
        have : wordsOfSlides ((splitLongSentence s max).dropLast) ++
            ([(splitLongSentence s max).getLastD []]).flatMap tokenizeWords =
            ((splitLongSentence s max).dropLast ++ [(splitLongSentence s max).getLastD []]).flatMap
              tokenizeWords := by
          simp [wordsOfSlides]
        rw [this, dropLast_append_getLastD hchunks, splitLongSentence_words]
      rw [List.append_assoc, hre]
    · rw [if_neg h2]
      rw [wordsOfSlides_emitted, wordsOfSlides_emitted]
      show wordsOfSlides (flushSlide st).slides ++ ([s]).flatMap tokenizeWords =
        (wordsOfSlides st.slides ++ st.currentSlide.flatMap tokenizeWords) ++ tokenizeWords s
      rw [flushSlide_slides_words]
      simp
  · rw [if_neg h1]
    rw [wordsOfSlides_emitted, wordsOfSlides_emitted]
    show wordsOfSlides st.slides ++ ((st.currentSlide ++ [s]).flatMap tokenizeWords) =
      (wordsOfSlides st.slides ++ st.currentSlide.flatMap tokenizeWords) ++ tokenizeWords s
    simp [List.flatMap_append]

theorem foldl_stepSentence_words (max : Nat) :
    ∀ (sentences : List Str) (st : GroupState),
      wordsOfSlides (emitted (sentences.foldl (stepSentence max) st)) =
        wordsOfSlides (emitted st) ++ sentences.flatMap tokenizeWords := by
  intro sentences
  induction sentences with
  | nil => intro st; simp
  | cons s rest ih =>
    intro st
    rw [List.foldl_cons, ih (stepSentence max st s), emitted_stepSentence]
    simp [List.flatMap_cons]

theorem groupSentencesIntoSlides_words (sentences : List Str) (config : ChunkConfig) :
    wordsOfSlides (groupSentencesIntoSlides sentences config) =
      sentences.flatMap tokenizeWords := by
  show wordsOfSlides (emitted (sentences.foldl (stepSentence config.maxWords) ⟨[], [], 0⟩)) = _
  rw [foldl_stepSentence_words]
  simp [emitted, wordsOfSlides]

/-- The loop invariant behind the word cap: all emitted slides are within the
cap, and the running count is the word count of the open slide and within the
cap. -/
def CapInv (max : Nat) (st : GroupState) : Prop :=
  (∀ s ∈ st.slides, countWords s ≤ max) ∧ st.currentWordCount ≤ max ∧
    st.currentWordCount = (st.currentSlide.flatMap tokenizeWords).length

theorem flushSlide_cap {max : Nat} {st : GroupState} (h : CapInv max st) :
    ∀ s ∈ (flushSlide st).slides, countWords s ≤ max := by
  intro s hs
  unfold flushSlide at hs
  by_cases hc : st.currentSlide.isEmpty
  · rw [if_pos hc] at hs
    exact h.1 s hs
  · rw [if_neg hc] at hs
    simp only [List.mem_append, List.mem_singleton] at hs
    rcases hs with hs | rfl
    · exact h.1 s hs
    · rw [countWords_joinSp, ← h.2.2]
      exact h.2.1

theorem stepSentence_cap {max : Nat} (hmax : 1 ≤ max) {st : GroupState} (s : Str)
    (h : CapInv max st) : CapInv max (stepSentence max st s) := by
  unfold stepSentence
  by_cases h1 : st.currentWordCount + countWords s > max
  · rw [if_pos h1]
    by_cases h2 : countWords s > max
    · rw [if_pos h2]
      have hts : tokenizeWords s ≠ [] := by
        intro hnil
        have hz : countWords s = 0 := by simp [countWords, hnil]
        omega
      have hchunks : splitLongSentence s max ≠ [] := splitLongSentence_ne_nil hts
      have hlastmem : (splitLongSentence s max).getLastD [] ∈ splitLongSentence s max := by
        rw [List.getLastD_eq_getLast?, List.getLast?_eq_getLast _ hchunks]
        exact List.getLast_mem hchunks
      have hlast : countWords ((splitLongSentence s max).getLastD []) ≤ max :=
        splitLongSentence_chunk_words hmax _ hlastmem
      refine ⟨?_, hlast, by simp [countWords]⟩
      intro t ht
      simp only [List.mem_append] at ht
      rcases ht with ht | ht
      · exact flushSlide_cap h t ht
      · exact splitLongSentence_chunk_words hmax t (List.Sublist.mem ht (List.dropLast_sublist (splitLongSentence s max)))
    · rw [if_neg h2]
      refine ⟨fun t ht => flushSlide_cap h t ht, ?_, by simp [countWords]⟩
      show countWords s ≤ max
      omega
  · rw [if_neg h1]
    refine ⟨h.1, ?_, ?_⟩
    · show st.currentWordCount + countWords s ≤ max
      omega
    simp only [List.flatMap_append, List.length_append, ← h.2.2]
    simp [countWords]

theorem foldl_stepSentence_cap {max : Nat} (hmax : 1 ≤ max) :
    ∀ (sentences : List Str) (st : GroupState), CapInv max st →
      CapInv max (sentences.foldl (stepSentence max) st) := by
  intro sentences
  induction sentences with
  | nil => intro st h; exact h
  | cons s rest ih =>
    intro st h
    exact ih (stepSentence max st s) (stepSentence_cap hmax s h)

theorem groupSentencesIntoSlides_cap {config : ChunkConfig} (hmax : 1 ≤ config.maxWords)
    (sentences : List Str) :
    ∀ s ∈ groupSentencesIntoSlides sentences config, countWords s ≤ config.maxWords := by
  intro s hs
  have hinv : CapInv config.maxWords
      (sentences.foldl (stepSentence config.maxWords) ⟨[], [], 0⟩) :=
    foldl_stepSentence_cap hmax sentences ⟨[], [], 0⟩ ⟨by simp, Nat.zero_le _, by simp⟩
  have : groupSentencesIntoSlides sentences config =
      emitted (sentences.foldl (stepSentence config.maxWords) ⟨[], [], 0⟩) := rfl
  rw [this] at hs
  exact flushSlide_cap hinv s (by
    unfold flushSlide
    by_cases hc : (sentences.foldl (stepSentence config.maxWords) ⟨[], [], 0⟩).currentSlide.isEmpty
    · rw [if_pos hc]
      unfold emitted at hs
      rw [if_pos hc] at hs
      simpa using hs
    · rw [if_neg hc]
      unfold emitted at hs
      rw [if_neg hc] at hs
      simpa using hs)

/-! ### Claim theorems for the chunker -/

/--
C1 (amended): joining the slides of `chunkText(text, config)` with single
spaces and re-tokenizing yields exactly the ordered word sequence of the
sentences produced by `splitIntoSentences(text)` — the grouping stage loses,
duplicates and reorders nothing.  (Relative to the original text the claim
fails: the sentence regex can drop words, see
`chunkText_loses_trailing_words`.)
-/
theorem chunkText_words_eq_sentence_words (text : Str) (config : ChunkConfig)
    (hpos : 1 ≤ config.maxWords) :
    tokenizeWords (joinSp (chunkText text config)) =
      (splitIntoSentences text).flatMap tokenizeWords := by
  unfold chunkText
  by_cases ht : (trim text).isEmpty
  · rw [if_pos ht]
    have htrim : trim text = [] := by simpa using ht
    have hallws : ∀ c ∈ text, isWs c = true := trim_eq_nil_iff.1 htrim
    have hfm : findMatches text = [] := findMatchesAux_all_ws hallws
    have hsent : splitIntoSentences text = [trim text] := by
      unfold splitIntoSentences
      rw [hfm]
      rfl
    rw [hsent, htrim]
    rfl
  · rw [if_neg ht]
    rw [tokenizeWords_joinSp]
    exact groupSentencesIntoSlides_words _ config

/-- C1 witness: the amended losslessness at a concrete text and config. -/
theorem chunkText_words_eq_sentence_words_witness :
    1 ≤ (⟨2⟩ : ChunkConfig).maxWords ∧
      tokenizeWords (joinSp (chunkText (("a b. c d.").toList) ⟨2⟩)) =
        (splitIntoSentences (("a b. c d.").toList)).flatMap tokenizeWords :=
  ⟨by decide, chunkText_words_eq_sentence_words (("a b. c d.").toList) ⟨2⟩ (by decide)⟩

/--
C1 counterexample: the claim as stated is false.  For the text
`"Hello. world"` (words after the final sentence terminator) and the default
config, the sentence regex drops `"world"`, so re-tokenizing the joined
chunker output does not reproduce the original word sequence.
-/
theorem chunkText_loses_trailing_words :
    tokenizeWords (joinSp (chunkText (("Hello. world").toList) DEFAULT_CHUNK_CONFIG)) ≠
      tokenizeWords (("Hello. world").toList) := by
  decide

/--
C2: every slide produced by `chunkText(text, config)` with a positive
`maxWords` has word count at most `config.maxWords`.
-/
theorem chunkText_cap (text : Str) (config : ChunkConfig) (hpos : 1 ≤ config.maxWords) :
    ∀ s ∈ chunkText text config, countWords s ≤ config.maxWords := by
  intro s hs
  unfold chunkText at hs
  by_cases ht : (trim text).isEmpty
  · rw [if_pos ht] at hs
    simp at hs
  · rw [if_neg ht] at hs
    exact groupSentencesIntoSlides_cap hpos _ s hs

/-- C2 witness: the cap at a concrete text, config and slide. -/
theorem chunkText_cap_witness : countWords (("a b.").toList) ≤ 3 :=
  chunkText_cap (("a b. c d.").toList) ⟨3⟩ (by decide) (("a b.").toList) (by decide)

/--
C3: at the concrete input below the chunker does NOT cut at the word cap.
With `maxWords = 3` and sentences of 2 and 3 words, the slide buffer would
exceed the cap, yet the emitted first slide is the 2-word first sentence
(the cut falls at the preceding sentence boundary) and no carry-over of the
claimed kind exists: the full second sentence starts the next slide.
-/
theorem chunkText_cuts_at_sentence_boundary :
    chunkText (("A1 A2. B1 B2 B3.").toList) ⟨3⟩ =
        [("A1 A2.").toList, ("B1 B2 B3.").toList] ∧
      chunkText (("A1 A2. B1 B2 B3.").toList) ⟨3⟩ ≠
        [("A1 A2. B1").toList, ("B2 B3.").toList] := by
  constructor
  · decide
  · decide

/--
C4: `chunkText("First sentence. Second sentence. Third sentence.",
{maxWords: 100})` returns a single slide holding all three sentences — the
config-aware chunker has no 2-sentence target, contrary to the claimed
two-slide output.
-/
theorem chunkText_no_two_sentence_target :
    chunkText (("First sentence. Second sentence. Third sentence.").toList) ⟨100⟩ =
        [("First sentence. Second sentence. Third sentence.").toList] ∧
      chunkText (("First sentence. Second sentence. Third sentence.").toList) ⟨100⟩ ≠
        [("First sentence. Second sentence.").toList, ("Third sentence.").toList] := by
  constructor
  · decide
  · decide

/-! ### Cumulative-sum scan lemmas -/

theorem cumWordsBefore_zero (slides : List Str) : cumWordsBefore slides 0 = 0 := rfl

theorem cumWordsBefore_cons (s : Str) (rest : List Str) (i : Nat) :
    cumWordsBefore (s :: rest) (i + 1) = countWords s + cumWordsBefore rest i := by
  simp [cumWordsBefore]

theorem cumWordsBefore_le (slides : List Str) {i j : Nat} (h : i ≤ j) :
    cumWordsBefore slides i ≤ cumWordsBefore slides j := by
  unfold cumWordsBefore
  rw [List.map_take, List.map_take]
  obtain ⟨k, rfl⟩ := Nat.exists_eq_add_of_le h
  rw [List.take_add, List.sum_append]
  omega

theorem cumWordsBefore_succ (slides : List Str) {i : Nat} (h : i < slides.length) :
    cumWordsBefore slides (i + 1) =
      cumWordsBefore slides i + countWords (slides.getD i []) := by
  unfold cumWordsBefore
  rw [List.take_succ, List.map_append, List.sum_append]
  have : slides[i]? = some slides[i] := List.getElem?_eq_getElem h
  rw [this, List.getD_eq_getElem slides [] h]
  simp

theorem totalSlideWords_cons (s : Str) (rest : List Str) :
    totalSlideWords (s :: rest) = countWords s + totalSlideWords rest := by
  simp [totalSlideWords]

theorem wordOffsetToSlideIndexAux_covers :
    ∀ (slides : List Str) (off : Int), 0 ≤ off → off < (totalSlideWords slides : Int) →
      ∃ i, wordOffsetToSlideIndexAux off slides = some i ∧ coversOffset slides i off := by
  intro slides
  induction slides with
  | nil =>
    intro off h0 hlt
    exfalso
    simp [totalSlideWords] at hlt
    omega
  | cons s rest ih =>
    intro off h0 hlt
    by_cases hgt : (countWords s : Int) > off
    · refine ⟨0, ?_, ?_⟩
      · simp [wordOffsetToSlideIndexAux, hgt]
      · refine ⟨by simp, by simp [cumWordsBefore_zero]; omega, ?_⟩
        simp only [cumWordsBefore_zero, List.getD_cons_zero]
        omega
    · have hle : (countWords s : Int) ≤ off := by omega
      have hlt2 : off - countWords s < (totalSlideWords rest : Int) := by
        rw [totalSlideWords_cons] at hlt
        push_cast at hlt ⊢
        omega
      obtain ⟨j, hj, hcov⟩ := ih (off - countWords s) (by omega) hlt2
      refine ⟨j + 1, ?_, ?_⟩
      · simp [wordOffsetToSlideIndexAux, hgt, hj]
      · obtain ⟨hjlen, hlo, hhi⟩ := hcov
        refine ⟨by simpa using Nat.succ_lt_succ hjlen, ?_, ?_⟩
        · rw [cumWordsBefore_cons]
          push_cast
          omega
        · rw [cumWordsBefore_cons]
          simp only [List.getD_cons_succ]
          push_cast at hhi ⊢
          omega

theorem wordOffsetToSlideIndexAux_none :
    ∀ (slides : List Str) (off : Int), (totalSlideWords slides : Int) ≤ off →
      wordOffsetToSlideIndexAux off slides = none := by
  intro slides
  induction slides with
  | nil => intro off h; rfl
  | cons s rest ih =>
    intro off h
    rw [totalSlideWords_cons] at h
    push_cast at h
    have hgt : ¬((countWords s : Int) > off) := by omega
    simp only [wordOffsetToSlideIndexAux, hgt, if_false]
    rw [ih (off - countWords s) (by omega)]
    rfl

theorem coversOffset_unique {slides : List Str} {off : Int} {i j : Nat}
    (hi : coversOffset slides i off) (hj : coversOffset slides j off) : i = j := by
  obtain ⟨hilen, hilo, hihi⟩ := hi
  obtain ⟨hjlen, hjlo, hjhi⟩ := hj
  by_contra hne
  rcases Nat.lt_or_ge i j with hij | hij
  · have h1 : cumWordsBefore slides (i + 1) ≤ cumWordsBefore slides j :=
      cumWordsBefore_le slides hij
    rw [cumWordsBefore_succ slides hilen] at h1
    omega
  · have hij2 : j < i := by omega
    have h1 : cumWordsBefore slides (j + 1) ≤ cumWordsBefore slides i :=
      cumWordsBefore_le slides hij2
    rw [cumWordsBefore_succ slides hjlen] at h1
    omega

/--
C7: the cumulative-sum scan of ReaderPage.  For an in-range offset it
returns the unique covering slide index; for an offset at or past the total
word count it returns the last index (0 for an empty list); for a negative
offset it returns 0 — out-of-range offsets are clamped, never an error.
-/
theorem wordOffsetToSlideIndex_spec (slides : List Str) (off : Int) :
    ((0 ≤ off ∧ off < (totalSlideWords slides : Int)) →
        coversOffset slides (wordOffsetToSlideIndex off slides) off ∧
          ∀ j, coversOffset slides j off → j = wordOffsetToSlideIndex off slides) ∧
      ((totalSlideWords slides : Int) ≤ off →
        wordOffsetToSlideIndex off slides = slides.length - 1) ∧
      (off < 0 → wordOffsetToSlideIndex off slides = 0) := by
  refine ⟨?_, ?_, ?_⟩
  · rintro ⟨h0, hlt⟩
    obtain ⟨i, hi, hcov⟩ := wordOffsetToSlideIndexAux_covers slides off h0 hlt
    have hret : wordOffsetToSlideIndex off slides = i := by
      unfold wordOffsetToSlideIndex
      rw [hi]
      rfl
    rw [hret]
    exact ⟨hcov, fun j hj => coversOffset_unique hj hcov⟩
  · intro h
    unfold wordOffsetToSlideIndex
    rw [wordOffsetToSlideIndexAux_none slides off h]
    rfl
  · intro h
    cases slides with
    | nil => rfl
    | cons s rest =>
      have hgt : (countWords s : Int) > off := by
        have : (0 : Int) ≤ countWords s := Int.natCast_nonneg _
        omega
      unfold wordOffsetToSlideIndex
      simp [wordOffsetToSlideIndexAux, hgt]

/-- C7 witness: the scan at concrete slides and offsets, all three cases. -/
theorem wordOffsetToSlideIndex_spec_witness :
    (coversOffset [("a b").toList, ("c").toList]
        (wordOffsetToSlideIndex 2 [("a b").toList, ("c").toList]) 2 ∧
      ∀ j, coversOffset [("a b").toList, ("c").toList] j 2 →
        j = wordOffsetToSlideIndex 2 [("a b").toList, ("c").toList]) ∧
      wordOffsetToSlideIndex 7 [("a b").toList, ("c").toList] = 1 ∧
      wordOffsetToSlideIndex (-1) [("a b").toList, ("c").toList] = 0 :=
  ⟨(wordOffsetToSlideIndex_spec [("a b").toList, ("c").toList] 2).1 (by decide),
   (wordOffsetToSlideIndex_spec [("a b").toList, ("c").toList] 7).2.1 (by decide),
   (wordOffsetToSlideIndex_spec [("a b").toList, ("c").toList] (-1)).2.2 (by decide)⟩

theorem covers_of_lt_total (slides : List Str) (off : Nat)
    (h : off < totalSlideWords slides) :
    coversOffset slides (wordOffsetToSlideIndex (off : Int) slides) (off : Int) := by
  obtain ⟨i, hi, hcov⟩ := wordOffsetToSlideIndexAux_covers slides off
    (Int.natCast_nonneg off) (by exact_mod_cast h)
  have hret : wordOffsetToSlideIndex (off : Int) slides = i := by
    unfold wordOffsetToSlideIndex
    rw [hi]
    rfl
  rw [hret]
  exact hcov

/--
C5: position stability.  For any text, any two configs with positive
`maxWords`, and any word offset below the total word count of each
chunking's output, the cumulative-sum scan over each chunking yields a slide
whose word range contains the offset.
-/
theorem chunkText_position_stability (text : Str) (off : Nat) (c1 c2 : ChunkConfig)
    (h1 : 1 ≤ c1.maxWords) (h2 : 1 ≤ c2.maxWords)
    (ho1 : off < totalSlideWords (chunkText text c1))
    (ho2 : off < totalSlideWords (chunkText text c2)) :
    coversOffset (chunkText text c1)
        (wordOffsetToSlideIndex off (chunkText text c1)) off ∧
      coversOffset (chunkText text c2)
        (wordOffsetToSlideIndex off (chunkText text c2)) off := by
  exact ⟨covers_of_lt_total (chunkText text c1) off ho1,
    covers_of_lt_total (chunkText text c2) off ho2⟩

/-- C5 witness: stability at a concrete text, offset and two configs. -/
theorem chunkText_position_stability_witness :
    coversOffset (chunkText (("a b. c d.").toList) ⟨2⟩)
        (wordOffsetToSlideIndex 2 (chunkText (("a b. c d.").toList) ⟨2⟩)) 2 ∧
      coversOffset (chunkText (("a b. c d.").toList) ⟨3⟩)
        (wordOffsetToSlideIndex 2 (chunkText (("a b. c d.").toList) ⟨3⟩)) 2 :=
  chunkText_position_stability (("a b. c d.").toList) 2 ⟨2⟩ ⟨3⟩
    (by decide) (by decide) (by decide) (by decide)

/--
C8: progress is `(words before the chapter + word offset) / total * 100`; it
is 0 when the total word count is 0, lies in `[0, 100]` for any in-range
position (`chapterIndex` valid, `wordOffset` within the chapter), and equals
exactly 75 for two 100-word chapters at `chapterIndex = 1`,
`wordOffset = 50`.
-/
theorem calculateProgress_spec (chapters : List Nat) (i off : Nat) :
    (getTotalWords chapters = 0 → calculateProgress chapters i off = 0) ∧
      (i < chapters.length → off ≤ chapters.getD i 0 →
        0 ≤ calculateProgress chapters i off ∧ calculateProgress chapters i off ≤ 100) ∧
      calculateProgress [100, 100] 1 50 = 75 := by
  refine ⟨?_, ?_, ?_⟩
  · intro h
    unfold calculateProgress
    by_cases hc : chapters.isEmpty
    · rw [if_pos hc]
    · rw [if_neg hc]
      simp [h]
  · intro hi hoff
    have hcne : ¬chapters.isEmpty := by
      cases chapters with
      | nil => simp at hi
      | cons a l => simp
    unfold calculateProgress
    rw [if_neg hcne]
    by_cases htot : getTotalWords chapters = 0
    · simp [htot]
    · rw [if_neg htot]
      have htpos : (0 : ℚ) < getTotalWords chapters := by
        have : 0 < getTotalWords chapters := Nat.pos_of_ne_zero htot
        exact_mod_cast this
      have hsum : getWordsBeforeChapter chapters i + off ≤ getTotalWords chapters := by
        unfold getWordsBeforeChapter getTotalWords
        have hsplit : chapters.take i ++ chapters.drop i = chapters := List.take_append_drop i chapters
        have hdrop : chapters.drop i = chapters.getD i 0 :: chapters.drop (i + 1) := by
          rw [List.drop_eq_getElem_cons hi, List.getD_eq_getElem chapters 0 hi]
        calc (chapters.take i).sum + off
            ≤ (chapters.take i).sum + (chapters.drop i).sum := by
              rw [hdrop]
              simp only [List.sum_cons]
              omega
          _ = chapters.sum := by rw [← List.sum_append, hsplit]
      constructor
      · positivity
      · rw [div_mul_eq_mul_div, div_le_iff htpos]
        have : ((getWordsBeforeChapter chapters i : ℚ) + off) ≤ (getTotalWords chapters : ℚ) := by
          exact_mod_cast hsum
        nlinarith
  · norm_num [calculateProgress, getTotalWords, getWordsBeforeChapter]

/-- C8 witness: the worked example, with the range facts discharged at the
same input. -/
theorem calculateProgress_spec_witness :
    (0 ≤ calculateProgress [100, 100] 1 50 ∧ calculateProgress [100, 100] 1 50 ≤ 100) ∧
      calculateProgress [100, 100] 1 50 = 75 :=
  ⟨(calculateProgress_spec [100, 100] 1 50).2.1 (by decide) (by decide),
   (calculateProgress_spec [100, 100] 1 50).2.2⟩

/-! ### Estimator lemmas -/

theorem addObservation_n (v : ℚ) (st : EstimatorState) :
    (addObservation v st).n = st.n + 1 := rfl

theorem addObservation_ema_ge {st : EstimatorState} (v : ℚ)
    (h : st.n = 0 ∨ 5 ≤ st.ema) : 5 ≤ (addObservation v st).ema := by
  unfold addObservation
  by_cases hn : st.n = 0
  · simp only [hn, if_true]
    exact le_max_right v 5
  · rcases h with h | h
    · exact absurd h hn
    · simp only [hn, if_false]
      have hclamp : (5 : ℚ) ≤ max v MIN_TIME_SECONDS := le_max_right v 5
      have ha : emaAlpha = 3 / 10 := rfl
      show 5 ≤ emaAlpha * max v MIN_TIME_SECONDS + (1 - emaAlpha) * st.ema
      rw [ha]
      unfold MIN_TIME_SECONDS at hclamp ⊢
      nlinarith

theorem foldl_addObservation_ema_ge :
    ∀ (obs : List ℚ) (st : EstimatorState), st.n ≠ 0 → 5 ≤ st.ema →
      (obs.foldl (fun s t => addObservation t s) st).n ≠ 0 ∧
        5 ≤ (obs.foldl (fun s t => addObservation t s) st).ema := by
  intro obs
  induction obs with
  | nil => intro st hn h; exact ⟨hn, h⟩
  | cons t rest ih =>
    intro st hn h
    refine ih (addObservation t st) ?_ (addObservation_ema_ge t (Or.inr h))
    rw [addObservation_n]
    omega

/--
C9 counterexample: the claim that the first `addObservation(v)` sets the EMA
to exactly `v` is false — an observation of 2 seconds is clamped to the
5-second minimum.
-/
theorem addObservation_clamps_first_observation :
    (addObservation 2 initialEstimator).ema ≠ 2 := by
  show max 2 MIN_TIME_SECONDS ≠ 2
  unfold MIN_TIME_SECONDS
  norm_num

/--
C9 (amended): each observation is first clamped to the 5-second minimum; the
first call sets the EMA to exactly `max(v, 5)` (so exactly `v` whenever
`v ≥ 5`), each later call updates it to
`alpha·max(v, 5) + (1 - alpha)·ema`, and a fresh estimator's
`addObservation(10)` followed by `predict()` returns `10 + 2`.
-/
theorem addObservation_ema_spec (v : ℚ) (st : EstimatorState) :
    (addObservation v initialEstimator).ema = max v 5 ∧
      (st.n ≠ 0 →
        (addObservation v st).ema = emaAlpha * max v 5 + (1 - emaAlpha) * st.ema) ∧
      predict (addObservation 10 initialEstimator) = 10 + 2 := by
  refine ⟨rfl, ?_, ?_⟩
  · intro hn
    unfold addObservation
    simp only [hn, if_false]
    rfl
  · show predict ⟨1, max 10 MIN_TIME_SECONDS⟩ = 10 + 2
    unfold predict MIN_TIME_SECONDS BUFFER_SECONDS
    norm_num

/-- C9 witness: the amended update law at a concrete state and observation. -/
theorem addObservation_ema_spec_witness :
    (addObservation 7 initialEstimator).ema = max 7 5 ∧
      (addObservation 7 (⟨1, 6⟩ : EstimatorState)).ema =
        emaAlpha * max 7 5 + (1 - emaAlpha) * 6 ∧
      predict (addObservation 10 initialEstimator) = 10 + 2 :=
  ⟨(addObservation_ema_spec 7 ⟨1, 6⟩).1,
   (addObservation_ema_spec 7 ⟨1, 6⟩).2.1 (by norm_num),
   (addObservation_ema_spec 7 ⟨1, 6⟩).2.2⟩

/--
C10 counterexample: before any observation the EMA is 0, not at least 5, so
the claim's "after any sequence of addObservation calls (including none) the
EMA stays at least 5" fails on the empty sequence.
-/
theorem initial_ema_below_minimum : ¬(5 ≤ (runObservations []).ema) := by
  show ¬((5 : ℚ) ≤ 0)
  norm_num

/--
C10 (amended): every observation is clamped to the 5-second minimum, so
after any non-empty observation sequence the EMA is at least 5, and after
any sequence (including none) `predict()` returns at least 7 seconds.
-/
theorem estimator_predict_min (obs : List ℚ) :
    (obs ≠ [] → 5 ≤ (runObservations obs).ema) ∧ 7 ≤ predict (runObservations obs) := by
  cases obs with
  | nil =>
    refine ⟨fun h => absurd rfl h, ?_⟩
    show (7 : ℚ) ≤ MIN_TIME_SECONDS + BUFFER_SECONDS
    unfold MIN_TIME_SECONDS BUFFER_SECONDS
    norm_num
  | cons t rest =>
    have hbase : (addObservation t initialEstimator).n ≠ 0 := by
      rw [addObservation_n]
      omega
    have hge : 5 ≤ (addObservation t initialEstimator).ema :=
      addObservation_ema_ge t (Or.inl rfl)
    obtain ⟨hn, hema⟩ := foldl_addObservation_ema_ge rest
      (addObservation t initialEstimator) hbase hge
    have hrun : runObservations (t :: rest) =
        rest.foldl (fun s u => addObservation u s) (addObservation t initialEstimator) := rfl
    refine ⟨fun _ => by rw [hrun]; exact hema, ?_⟩
    rw [hrun]
    unfold predict
    rw [if_neg hn]
    have h1 : (rest.foldl (fun s u => addObservation u s) (addObservation t initialEstimator)).ema
        + BUFFER_SECONDS ≥ 7 := by
      unfold BUFFER_SECONDS
      linarith
    calc (7 : ℚ) ≤ _ + BUFFER_SECONDS := by linarith [h1]
      _ ≤ max MIN_TIME_SECONDS (_ + BUFFER_SECONDS) := le_max_right _ _

/-- C10 witness: the amended bounds after one concrete observation. -/
theorem estimator_predict_min_witness :
    5 ≤ (runObservations [1]).ema ∧ 7 ≤ predict (runObservations [1]) :=
  ⟨(estimator_predict_min [1]).1 (List.cons_ne_nil 1 []),
   (estimator_predict_min [1]).2⟩

/-! ### Non-emptiness chain for the window positioner -/

theorem isTerm_isWs_false {c : Char} (h : isTerm c = true) : isWs c = false := by
  simp only [isTerm, Bool.or_eq_true, beq_iff_eq] at h
  rcases h with (h | h) | h <;> subst h <;> rfl

theorem dropWhile_head_false {α : Type} {p : α → Bool} :
    ∀ (l : List α) {c : α} {r : List α}, l.dropWhile p = c :: r → p c = false := by
  intro l
  induction l with
  | nil => intro c r h; simp at h
  | cons x xs ih =>
    intro c r h
    by_cases hx : p x = true
    · rw [List.dropWhile_cons_of_pos hx] at h
      exact ih h
    · rw [List.dropWhile_cons_of_neg hx] at h
      obtain ⟨rfl, rfl⟩ := List.cons.injEq x xs c r ▸ h
      simpa using hx

theorem tokenizeWords_trim_ne_nil {s : Str} (h : trim s ≠ []) :
    tokenizeWords (trim s) ≠ [] := by
  intro hnil
  have hall : ∀ c ∈ trim s, isWs c = true := tokenizeWords_eq_nil_iff.1 hnil
  cases hcase : (s.dropWhile isWs).reverse.dropWhile isWs with
  | nil =>
    apply h
    unfold trim
    rw [hcase]
    rfl
  | cons c r =>
    have hc : isWs c = false := dropWhile_head_false _ hcase
    have hcmem : c ∈ trim s := by
      unfold trim
      rw [hcase]
      exact List.mem_reverse.2 (List.mem_cons_self c r)
    rw [hall c hcmem] at hc
    simp at hc

theorem mem_joinSp_head {w : Str} {rest : List Str} {x : Char} (hx : x ∈ w) :
    x ∈ joinSp (w :: rest) := by
  cases rest with
  | nil => exact hx
  | cons t ts =>
    show x ∈ w ++ ' ' :: joinSp (t :: ts)
    exact List.mem_append.2 (Or.inl hx)

theorem trim_joinSp_tokens_ne_nil {ts : List Str} (hne : ts ≠ [])
    (htok : ∀ w ∈ ts, w ≠ [] ∧ ∀ c ∈ w, isWs c = false) :
    trim (joinSp ts) ≠ [] := by
  intro htrim
  obtain ⟨w, rest, rfl⟩ := List.exists_cons_of_ne_nil hne
  obtain ⟨hwne, hwws⟩ := htok w (List.mem_cons_self w rest)
  obtain ⟨c, cr, rfl⟩ := List.exists_cons_of_ne_nil hwne
  have hcmem : c ∈ joinSp ((c :: cr) :: rest) :=
    mem_joinSp_head (List.mem_cons_self c cr)
  have hws : isWs c = true := trim_eq_nil_iff.1 htrim c hcmem
  have := hwws c (List.mem_cons_self c cr)
  rw [hws] at this
  simp at this

theorem sentence_words_ne_nil {t : Str} (htrim : trim t ≠ []) :
    (splitIntoSentences t).flatMap tokenizeWords ≠ [] := by
  unfold splitIntoSentences
  by_cases hms : (findMatches t).isEmpty
  · rw [if_pos hms]
    simpa using tokenizeWords_trim_ne_nil htrim
  · rw [if_neg hms]
    have hne : findMatches t ≠ [] := by simpa using hms
    obtain ⟨m, ms, hcons⟩ := List.exists_cons_of_ne_nil hne
    have hmem : m ∈ findMatches t := by rw [hcons]; exact List.mem_cons_self m ms
    obtain ⟨c, hcm, hcterm⟩ := findMatchesAux_has_term m hmem
    have htm : trim m ≠ [] := by
      intro hnil
      have := trim_eq_nil_iff.1 hnil c hcm
      rw [isTerm_isWs_false hcterm] at this
      simp at this
    have hsentmem : trim m ∈ ((findMatches t).map trim).filter (fun s => !s.isEmpty) := by
      refine List.mem_filter.2 ⟨List.mem_map.2 ⟨m, hmem, rfl⟩, ?_⟩
      simpa using htm
    intro hflat
    have := List.flatMap_eq_nil_iff.1 hflat (trim m) hsentmem
    exact tokenizeWords_trim_ne_nil htm this

theorem chunkText_ne_nil_of_trim {t : Str} (config : ChunkConfig) (htrim : trim t ≠ []) :
    chunkText t config ≠ [] := by
  unfold chunkText
  rw [if_neg (by simpa using htrim)]
  intro hnil
  have hw := groupSentencesIntoSlides_words (splitIntoSentences t) config
  rw [hnil] at hw
  exact sentence_words_ne_nil htrim hw.symm

theorem take_succ_ne_nil {α : Type} {l : List α} (h : l ≠ []) (n : Nat) :
    l.take (n + 1) ≠ [] := by
  obtain ⟨x, xs, rfl⟩ := List.exists_cons_of_ne_nil h
  simp

/-! ### Lemmas about the window positioner of SlidingWindowHelper -/

theorem countWordsInTokens_nil : countWordsInTokens [] = 0 := rfl

theorem countWordsInTokens_cons_ws {t : Str} (h : isWsRun t = true) (rest : List Str) :
    countWordsInTokens (t :: rest) = countWordsInTokens rest := by
  simp [countWordsInTokens, List.filter_cons, h]

theorem countWordsInTokens_cons_word {t : Str} (h : isWsRun t = false) (rest : List Str) :
    countWordsInTokens (t :: rest) = countWordsInTokens rest + 1 := by
  simp [countWordsInTokens, List.filter_cons, h]

theorem splitIntoWordsAux_ne_nil :
    ∀ (fuel : Nat) (cs : Str), ∀ t ∈ splitIntoWordsAux fuel cs, t ≠ [] := by
  intro fuel
  induction fuel with
  | zero => intro cs t ht; simp [splitIntoWordsAux] at ht
  | succ fuel ih =>
    intro cs t ht
    cases cs with
    | nil => simp [splitIntoWordsAux] at ht
    | cons c rest =>
      simp only [splitIntoWordsAux] at ht
      by_cases hc : isWs c = true
      · rw [if_pos hc] at ht
        rcases List.mem_cons.1 ht with rfl | h2
        · simp
        · exact ih _ t h2
      · rw [if_neg hc] at ht
        rcases List.mem_cons.1 ht with rfl | h2
        · simp
        · exact ih _ t h2

theorem splitIntoWordsAux_flatten :
    ∀ (fuel : Nat) (cs : Str), cs.length ≤ fuel →
      (splitIntoWordsAux fuel cs).flatten = cs := by
  intro fuel
  induction fuel with
  | zero =>
    intro cs h
    cases cs with
    | nil => rfl
    | cons c rest => simp at h
  | succ fuel ih =>
    intro cs h
    cases cs with
    | nil => rfl
    | cons c rest =>
      have hlen : ∀ (p : Char → Bool), (rest.dropWhile p).length ≤ fuel := by
        intro p
        have h1 : (rest.dropWhile p).length ≤ rest.length := (List.dropWhile_sublist p).length_le
        simp only [List.length_cons] at h
        omega
      simp only [splitIntoWordsAux]
      by_cases hc : isWs c = true
      · rw [if_pos hc, List.flatten_cons, ih _ (hlen isWs)]
        rw [List.cons_append, List.takeWhile_append_dropWhile]
      · rw [if_neg hc, List.flatten_cons, ih _ (hlen (fun d => !isWs d))]
        rw [List.cons_append, List.takeWhile_append_dropWhile]

theorem tokenIndexScan_break (target : Nat) :
    ∀ (l : List Str) (i0 wc0 : Nat), wc0 ≤ target →
      target < wc0 + countWordsInTokens l →
      ∃ j t r, (tokenIndexScan target l i0 wc0).1 = some (i0 + j) ∧
        l.drop j = t :: r ∧ isWsRun t = false := by
  intro l
  induction l with
  | nil =>
    intro i0 wc0 hle hlt
    rw [countWordsInTokens_nil] at hlt
    omega
  | cons t rest ih =>
    intro i0 wc0 hle hlt
    cases hw : isWsRun t with
    | true =>
      rw [countWordsInTokens_cons_ws hw] at hlt
      obtain ⟨j, t2, r2, h1, h2, h3⟩ := ih (i0 + 1) wc0 hle hlt
      refine ⟨j + 1, t2, r2, ?_, by simpa using h2, h3⟩
      have hstep : tokenIndexScan target (t :: rest) i0 wc0 =
          tokenIndexScan target rest (i0 + 1) wc0 := by
        simp [tokenIndexScan, hw]
      rw [hstep, h1]
      exact congrArg some (by omega)
    | false =>
      by_cases hge : wc0 ≥ target
      · refine ⟨0, t, rest, ?_, by simp, hw⟩
        have hstep : tokenIndexScan target (t :: rest) i0 wc0 = (some i0, wc0) := by
          simp [tokenIndexScan, hw, hge]
        rw [hstep]
        simp
      · rw [countWordsInTokens_cons_word hw] at hlt
        obtain ⟨j, t2, r2, h1, h2, h3⟩ := ih (i0 + 1) (wc0 + 1) (by omega) (by omega)
        refine ⟨j + 1, t2, r2, ?_, by simpa using h2, h3⟩
        have hstep : tokenIndexScan target (t :: rest) i0 wc0 =
            tokenIndexScan target rest (i0 + 1) (wc0 + 1) := by
          simp [tokenIndexScan, hw, hge]
        rw [hstep, h1]
        exact congrArg some (by omega)

theorem tokenIndexScan_none (target : Nat) :
    ∀ (l : List Str) (i0 wc0 : Nat), wc0 + countWordsInTokens l ≤ target →
      tokenIndexScan target l i0 wc0 = (none, wc0 + countWordsInTokens l) := by
  intro l
  induction l with
  | nil =>
    intro i0 wc0 h
    simp [tokenIndexScan, countWordsInTokens_nil]
  | cons t rest ih =>
    intro i0 wc0 h
    cases hw : isWsRun t with
    | true =>
      rw [countWordsInTokens_cons_ws hw] at h ⊢
      have hstep : tokenIndexScan target (t :: rest) i0 wc0 =
          tokenIndexScan target rest (i0 + 1) wc0 := by
        simp [tokenIndexScan, hw]
      rw [hstep, ih (i0 + 1) wc0 h]
    | false =>
      rw [countWordsInTokens_cons_word hw] at h ⊢
      have hge : ¬(wc0 ≥ target) := by omega
      have hstep : tokenIndexScan target (t :: rest) i0 wc0 =
          tokenIndexScan target rest (i0 + 1) (wc0 + 1) := by
        simp [tokenIndexScan, hw, hge]
      rw [hstep, ih (i0 + 1) (wc0 + 1) (by omega)]
      exact Prod.ext rfl (by omega)

theorem targetTokenIndex_of_lt {off : Nat} {toks : List Str}
    (h : off < countWordsInTokens toks) :
    ∃ t r, toks.drop (targetTokenIndex off toks) = t :: r ∧ isWsRun t = false := by
  obtain ⟨j, t, r, h1, h2, h3⟩ :=
    tokenIndexScan_break off toks 0 0 (Nat.zero_le off) (by omega)
  refine ⟨t, r, ?_, h3⟩
  have hidx : targetTokenIndex off toks = j := by
    unfold targetTokenIndex
    rcases hsc : tokenIndexScan off toks 0 0 with ⟨o, wc⟩
    rw [hsc] at h1
    have ho : o = some (0 + j) := h1
    subst ho
    simp
  rw [hidx]
  exact h2

theorem targetTokenIndex_of_eq {off : Nat} {toks : List Str}
    (h : countWordsInTokens toks = off) :
    targetTokenIndex off toks = 0 := by
  have hsc := tokenIndexScan_none off toks 0 0 (by omega)
  unfold targetTokenIndex
  rw [hsc]
  simp [h]

theorem sliceLast_nil {α : Type} (n : Nat) : sliceLast n ([] : List α) = [] := by
  unfold sliceLast
  split <;> simp

theorem guardChunk_take_ne_nil {txt : Str} {c : Char} (config : ChunkConfig) (n : Nat)
    (hc : c ∈ txt) (hw : isWs c = false) :
    ((if txt.isEmpty then [] else chunkText txt config).take (n + 1)) ≠ [] := by
  have hne : txt ≠ [] := by rintro rfl; simp at hc
  rw [if_neg (by simpa using hne)]
  refine take_succ_ne_nil ?_ n
  apply chunkText_ne_nil_of_trim
  intro htrim
  have h2 := trim_eq_nil_iff.1 htrim c hc
  rw [hw] at h2
  simp at h2

theorem guardChunk_all_ws {txt : Str} (config : ChunkConfig)
    (h : ∀ c ∈ txt, isWs c = true) :
    (if txt.isEmpty then [] else chunkText txt config) = [] := by
  by_cases he : txt.isEmpty
  · rw [if_pos he]
  · rw [if_neg he]
    unfold chunkText
    rw [if_pos (by simp [trim_eq_nil_iff.2 h])]

/--
C6 (amended): every `computeWindow` of SlidingWindowHelper satisfies
`sum slideWordCounts = endWordOffset - startWordOffset` and
`slides.length = slideWordCounts.length` unconditionally;
`currentIndex < slides.length` holds whenever the target word offset is at
most the chapter's word count and the chapter has content; and a chapter
with no words yields the empty window with `currentIndex = 0`.  (For target
offsets strictly beyond the chapter's word count the after-part is empty and
the index invariant fails, see `computeWindow_index_beyond_end`.)
-/
theorem computeWindow_invariants (chapterText : Str) (chIdx off : Nat)
    (config : ChunkConfig) (wconfig : WindowConfig) (hpos : 1 ≤ config.maxWords) :
    ((computeWindow chapterText chIdx off config wconfig).slideWordCounts.sum : Int) =
        (computeWindow chapterText chIdx off config wconfig).endWordOffset -
          (computeWindow chapterText chIdx off config wconfig).startWordOffset ∧
      (computeWindow chapterText chIdx off config wconfig).slides.length =
        (computeWindow chapterText chIdx off config wconfig).slideWordCounts.length ∧
      (off ≤ countWordsInTokens (splitIntoWords chapterText) →
        tokenizeWords chapterText ≠ [] →
        (computeWindow chapterText chIdx off config wconfig).currentIndex <
          (computeWindow chapterText chIdx off config wconfig).slides.length) ∧
      (tokenizeWords chapterText = [] →
        (computeWindow chapterText chIdx off config wconfig).slides = [] ∧
          (computeWindow chapterText chIdx off config wconfig).currentIndex = 0) := by
  refine ⟨?_, ?_, ?_, ?_⟩
  · simp only [computeWindow]
    ring
  · simp only [computeWindow, List.length_map]
  · intro hoff hne
    have hchar : ∃ c ∈ ((splitIntoWords chapterText).drop
        (targetTokenIndex off (splitIntoWords chapterText))).flatten, isWs c = false := by
      rcases Nat.lt_or_ge off (countWordsInTokens (splitIntoWords chapterText)) with hlt | hge
      · obtain ⟨t, r, hdrop, hwf⟩ := targetTokenIndex_of_lt hlt
        have htmem : t ∈ splitIntoWords chapterText := by
          have hmem2 : t ∈ (splitIntoWords chapterText).drop
              (targetTokenIndex off (splitIntoWords chapterText)) := by
            rw [hdrop]
            exact List.mem_cons_self t r
          exact List.Sublist.mem hmem2 (List.drop_sublist _ _)
        have htne : t ≠ [] := splitIntoWordsAux_ne_nil _ _ t htmem
        have hnall : ¬(t.all isWs = true) := by
          intro hall2
          unfold isWsRun at hwf
          rw [hall2] at hwf
          simp only [Bool.and_true, Bool.not_eq_false'] at hwf
          exact htne (by simpa using hwf)
        obtain ⟨c, hcmem, hcw⟩ : ∃ c ∈ t, isWs c = false := by
          by_contra hno
          apply hnall
          rw [List.all_eq_true]
          intro c hcm
          cases hicw : isWs c with
          | false => exact absurd ⟨c, hcm, hicw⟩ hno
          | true => rfl
        refine ⟨c, ?_, hcw⟩
        rw [hdrop]
        exact List.mem_flatten.2 ⟨t, List.mem_cons_self t r, hcmem⟩
      · have heq : countWordsInTokens (splitIntoWords chapterText) = off := by omega
        rw [targetTokenIndex_of_eq heq, List.drop_zero]
        rw [show (splitIntoWords chapterText).flatten = chapterText from
          splitIntoWordsAux_flatten _ _ le_rfl]
        by_contra hno
        apply hne
        rw [tokenizeWords_eq_nil_iff]
        intro c hcm
        cases hicw : isWs c with
        | false => exact absurd ⟨c, hcm, hicw⟩ hno
        | true => rfl
    obtain ⟨c, hcmem, hcw⟩ := hchar
    have htake := guardChunk_take_ne_nil config wconfig.nextCount hcmem hcw
    have hlen := List.length_pos.2 htake
    simp only [computeWindow, List.length_append]
    omega
  · intro h
    have hall : ∀ c ∈ chapterText, isWs c = true := tokenizeWords_eq_nil_iff.1 h
    have hws : ∀ (l : List Str), l.Sublist (splitIntoWords chapterText) →
        ∀ x ∈ l.flatten, isWs x = true := by
      intro l hsl x hx
      obtain ⟨t, ht, hxt⟩ := List.mem_flatten.1 hx
      have hx2 : x ∈ (splitIntoWords chapterText).flatten :=
        List.mem_flatten.2 ⟨t, hsl.mem ht, hxt⟩
      rw [show (splitIntoWords chapterText).flatten = chapterText from
        splitIntoWordsAux_flatten _ _ le_rfl] at hx2
      exact hall x hx2
    constructor
    · simp only [computeWindow]
      rw [guardChunk_all_ws config (hws _ (List.take_sublist _ _)),
        guardChunk_all_ws config (hws _ (List.drop_sublist _ _)), sliceLast_nil]
      simp
    · simp only [computeWindow]
      rw [guardChunk_all_ws config (hws _ (List.take_sublist _ _)), sliceLast_nil]
      rfl

/-- C6 witness: the amended invariants at a concrete chapter, an offset
within the content, and the default config and window config. -/
theorem computeWindow_invariants_witness :
    ((computeWindow (("a. b c.").toList) 0 1 ⟨50⟩ ⟨5, 5⟩).slideWordCounts.sum : Int) =
        (computeWindow (("a. b c.").toList) 0 1 ⟨50⟩ ⟨5, 5⟩).endWordOffset -
          (computeWindow (("a. b c.").toList) 0 1 ⟨50⟩ ⟨5, 5⟩).startWordOffset ∧
      (computeWindow (("a. b c.").toList) 0 1 ⟨50⟩ ⟨5, 5⟩).currentIndex <
        (computeWindow (("a. b c.").toList) 0 1 ⟨50⟩ ⟨5, 5⟩).slides.length :=
  ⟨(computeWindow_invariants (("a. b c.").toList) 0 1 ⟨50⟩ ⟨5, 5⟩ (by decide)).1,
   (computeWindow_invariants (("a. b c.").toList) 0 1 ⟨50⟩ ⟨5, 5⟩ (by decide)).2.2.1
     (by decide) (by decide)⟩

/--
C6 counterexample: for a target word offset strictly beyond the chapter's
word count (stale persisted progress, which the spec says must be tolerated),
the token scan puts the cut past all tokens, the after-part is empty, and the
returned window is non-empty with `currentIndex = slides.length`, violating
`0 ≤ currentIndex < slides.length`; the all-empty escape clause does not
apply since the chapter has content.
-/
theorem computeWindow_index_beyond_end :
    (computeWindow (("a.").toList) 0 2 ⟨50⟩ ⟨5, 5⟩).slides ≠ [] ∧
      (computeWindow (("a.").toList) 0 2 ⟨50⟩ ⟨5, 5⟩).currentIndex =
        (computeWindow (("a.").toList) 0 2 ⟨50⟩ ⟨5, 5⟩).slides.length := by
  constructor
  · decide
  · decide
